/-
Verification of the sitemap-visualization-tool repository.

The repository has three Python scripts:
  * categorize_urls.py : `peel_layers` builds an aggregation table from a URL list,
  * visualize_urls.py  : `make_sitemap_graph` / `add_branch` build a graphviz body,
  * extract_urls.py    : `get_urls` / `get_all_urls` fetch and flatten XML sitemaps.

This file gives a shallow embedding of those functions and proves / refutes the
frozen claims about them.  Python strings are modelled as `List Char` (`PStr`),
and Python's `str.split`, slicing, and exception behaviour are modelled
explicitly.  Pandas sorts appearing in the source are modelled as stable sorts:
the multi-column `sort_values` used by `peel_layers` is numpy `lexsort`, which
is stable; the single-column sort's tie order (pandas default quicksort) is
modelled as stable as well, which only fixes an order pandas leaves unspecified
among rows equal in both the sort key and the later sort keys.
-/
import Mathlib

/-- Python strings, modelled as lists of characters. -/
abbrev PStr := List Char

/-- Coerce a Lean string literal to the `PStr` model. -/
def S (s : String) : PStr := s.data

/-! ### Python `str.split` on a single character separator -/

/-- Python `s.split(c)` for a one-character separator `c`:
splits at every occurrence, always returns a non-empty list,
`''.split(c) == ['']`. -/
def splitCh (c : Char) : PStr → List PStr
  | [] => [[]]
  | x :: xs =>
    if x = c then [] :: splitCh c xs
    else
      match splitCh c xs with
      | [] => [[x]]
      | r :: rs => (x :: r) :: rs

theorem splitCh_ne_nil (c : Char) (l : PStr) : splitCh c l ≠ [] := by
  induction l with
  | nil => simp [splitCh]
  | cons x xs ih =>
    by_cases h : x = c <;> simp [splitCh, h]
    cases hs : splitCh c xs <;> simp

/-! ### Python `str.split` on a (non-empty) multi-character separator -/

/-- Fuel-driven worker for `pySplit`; the fuel is the length of the string, so
for a non-empty separator the fuel never runs out. -/
def pySplitAux (sep : PStr) : Nat → PStr → List PStr
  | _, [] => [[]]
  | 0, l => [l]
  | fuel + 1, x :: xs =>
    if sep.isPrefixOf (x :: xs) then [] :: pySplitAux sep fuel ((x :: xs).drop sep.length)
    else
      match pySplitAux sep fuel xs with
      | [] => [[x]]
      | r :: rs => (x :: r) :: rs

/-- Python `s.split(sep)` for a non-empty separator: left-to-right scan over
non-overlapping occurrences. -/
def pySplit (l sep : PStr) : List PStr := pySplitAux sep l.length l

theorem pySplitAux_ne_nil (sep : PStr) (fuel : Nat) (l : PStr) :
    pySplitAux sep fuel l ≠ [] := by
  induction fuel generalizing l with
  | zero => cases l <;> simp [pySplitAux]
  | succ n ih =>
    cases l with
    | nil => simp [pySplitAux]
    | cons x xs =>
      by_cases h : sep.isPrefixOf (x :: xs) <;> simp [pySplitAux, h]
      cases hs : pySplitAux sep n xs <;> simp

theorem pySplit_ne_nil (l sep : PStr) : pySplit l sep ≠ [] :=
  pySplitAux_ne_nil sep l.length l

/-! ### Stable insertion sort over a boolean `le`, with a stability lemma.
This models pandas' stable sorting (see the header comment). -/

def ordIns (le : α → α → Bool) (a : α) : List α → List α
  | [] => [a]
  | b :: l => if le a b then a :: b :: l else b :: ordIns le a l

def sortBy (le : α → α → Bool) : List α → List α
  | [] => []
  | a :: l => ordIns le a (sortBy le l)

theorem perm_ordIns (le : α → α → Bool) (a : α) (l : List α) :
    (ordIns le a l).Perm (a :: l) := by
  induction l with
  | nil => simp [ordIns]
  | cons b t ih =>
    by_cases h : le a b <;> simp [ordIns, h]
    exact (ih.cons b).trans (List.Perm.swap a b t)

theorem perm_sortBy (le : α → α → Bool) (l : List α) : (sortBy le l).Perm l := by
  induction l with
  | nil => simp [sortBy]
  | cons a t ih => exact (perm_ordIns le a (sortBy le t)).trans (ih.cons a)

theorem mem_sortBy {le : α → α → Bool} {l : List α} {x : α} :
    x ∈ sortBy le l ↔ x ∈ l := (perm_sortBy le l).mem_iff

/-- Stability: if consecutive elements of `l` satisfy `Q`, then after a stable
sort by `le`, any two elements in order either strictly increased or, when tied
under `le`, kept their original relative order and hence still satisfy `Q`. -/
theorem pairwise_ordIns (le : α → α → Bool) (Q : α → α → Prop)
    (htot : ∀ x y, le x y = true ∨ le y x = true)
    (htr : ∀ x y z, le x y = true → le y z = true → le x z = true)
    (a : α) (l : List α)
    (hl : l.Pairwise (fun x y => le x y = true ∧ (le y x = true → Q x y)))
    (hQ : ∀ x ∈ l, Q a x) :
    (ordIns le a l).Pairwise (fun x y => le x y = true ∧ (le y x = true → Q x y)) := by
  induction l with
  | nil => simp [ordIns]
  | cons b t ih =>
    rcases List.pairwise_cons.1 hl with ⟨hb, ht⟩
    by_cases h : le a b
    · simp only [ordIns, h, if_pos]
      refine List.pairwise_cons.2 ⟨?_, hl⟩
      intro y hy
      rcases List.mem_cons.1 hy with rfl | hy'
      · exact ⟨h, fun _ => hQ y (by simp)⟩
      · exact ⟨htr a b y h (hb y hy').1, fun _ => hQ y (by simp [hy'])⟩
    · simp only [ordIns, h, if_neg, Bool.not_eq_true]
      refine List.pairwise_cons.2 ⟨?_, ih ht (fun x hx => hQ x (by simp [hx]))⟩
      intro y hy
      have hy' : y = a ∨ y ∈ t := by
        have := (perm_ordIns le a t).mem_iff.1 hy
        simpa using this
      rcases hy' with rfl | hy'
      · refine ⟨?_, ?_⟩
        · rcases htot y b with hab | hba
          · exact absurd hab h
          · exact hba
        · intro hab; exact absurd hab h
      · exact hb y hy'

theorem pairwise_sortBy (le : α → α → Bool) (Q : α → α → Prop)
    (htot : ∀ x y, le x y = true ∨ le y x = true)
    (htr : ∀ x y z, le x y = true → le y z = true → le x z = true)
    (l : List α) (hl : l.Pairwise Q) :
    (sortBy le l).Pairwise (fun x y => le x y = true ∧ (le y x = true → Q x y)) := by
  induction l with
  | nil => simp [sortBy]
  | cons a t ih =>
    rcases List.pairwise_cons.1 hl with ⟨ha, ht⟩
    exact pairwise_ordIns le Q htot htr a (sortBy le t) (ih ht)
      (fun x hx => ha x (mem_sortBy.1 hx))

theorem sorted_sortBy (le : α → α → Bool)
    (htot : ∀ x y, le x y = true ∨ le y x = true)
    (htr : ∀ x y z, le x y = true → le y z = true → le x z = true)
    (l : List α) :
    (sortBy le l).Pairwise (fun x y => le x y = true) := by
  have := pairwise_sortBy le (fun _ _ => True) htot htr l
    (List.pairwise_iff_forall_sublist.2 (by intro a b _; trivial))
  exact this.imp (fun h => h.1)

/-- A sort whose comparator always says `true` is the identity (this is the
case of pandas `sort_values(by=[])`). -/
theorem sortBy_of_true (le : α → α → Bool) (hle : ∀ x y, le x y = true)
    (l : List α) : sortBy le l = l := by
  induction l with
  | nil => rfl
  | cons a t ih =>
    simp only [sortBy, ih]
    cases t with
    | nil => rfl
    | cons b t' => simp [ordIns, hle a b]

/-! ### Lexicographic comparators -/

/-- Generic lexicographic `le` from a boolean strict order on elements. -/
def llexLe (lt : β → β → Bool) : List β → List β → Bool
  | [], _ => true
  | _ :: _, [] => false
  | a :: as, b :: bs => if lt a b then true else if lt b a then false else llexLe lt as bs

theorem llexLe_refl (lt : β → β → Bool) (hirr : ∀ a, lt a a = false) (l : List β) :
    llexLe lt l l = true := by
  induction l with
  | nil => rfl
  | cons a t ih => simp [llexLe, hirr a, ih]

theorem llexLe_total (lt : β → β → Bool)
    (hconn : ∀ a b, lt a b = true ∨ lt b a = true ∨ a = b)
    (hirr : ∀ a, lt a a = false) :
    ∀ l m : List β, llexLe lt l m = true ∨ llexLe lt m l = true := by
  intro l
  induction l with
  | nil => intro m; left; rfl
  | cons a t ih =>
    intro m
    cases m with
    | nil => right; rfl
    | cons b u =>
      rcases hconn a b with h | h | h
      · left; simp [llexLe, h]
      · right; simp [llexLe, h]
      · subst h
        rcases ih u with h' | h'
        · left; simp [llexLe, hirr a, h']
        · right; simp [llexLe, hirr a, h']

theorem llexLe_trans (lt : β → β → Bool)
    (hasym : ∀ a b, lt a b = true → lt b a = true → False)
    (htr : ∀ a b c, lt a b = true → lt b c = true → lt a c = true)
    (htri : ∀ a b, lt a b = false → lt b a = false → a = b) :
    ∀ l m n : List β, llexLe lt l m = true → llexLe lt m n = true →
      llexLe lt l n = true := by
  intro l
  induction l with
  | nil => intro m n _ _; rfl
  | cons a t ih =>
    intro m n h1 h2
    cases m with
    | nil => simp [llexLe] at h1
    | cons b u =>
      cases n with
      | nil => simp [llexLe] at h2
      | cons c v =>
        simp only [llexLe] at h1 h2 ⊢
        cases hab : lt a b with
        | true =>
          cases hbc : lt b c with
          | true => simp [htr a b c hab hbc]
          | false =>
            cases hcb : lt c b with
            | true => simp [hbc, hcb] at h2
            | false =>
              have hbceq : b = c := htri b c hbc hcb
              subst hbceq
              simp [hab]
        | false =>
          cases hba : lt b a with
          | true => simp [hab, hba] at h1
          | false =>
            have habeq : a = b := htri a b hab hba
            subst habeq
            cases hac : lt a c with
            | true => simp [hac]
            | false =>
              cases hca : lt c a with
              | true => simp [hac, hca] at h2
              | false =>
                simp only [hab, hac, hca, Bool.false_eq_true, if_false] at h1 h2 ⊢
                exact ih u v h1 h2

theorem llexLe_antisymm (lt : β → β → Bool)
    (hasym : ∀ a b, lt a b = true → lt b a = true → False)
    (htri : ∀ a b, lt a b = false → lt b a = false → a = b) :
    ∀ l m : List β, llexLe lt l m = true → llexLe lt m l = true → l = m := by
  intro l
  induction l with
  | nil =>
    intro m _ h2
    cases m with
    | nil => rfl
    | cons b u => simp [llexLe] at h2
  | cons a t ih =>
    intro m h1 h2
    cases m with
    | nil => simp [llexLe] at h1
    | cons b u =>
      simp only [llexLe] at h1 h2
      by_cases hab : lt a b = true
      · by_cases hba : lt b a = true
        · exact absurd (hasym a b hab hba) (fun h => h)
        · simp [hba, hab] at h2
      · by_cases hba : lt b a = true
        · simp [hab, hba] at h1
        · have : a = b := htri a b (by simpa using hab) (by simpa using hba)
          subst this
          have := ih u (by simpa [hab] using h1) (by simpa [hab] using h2)
          rw [this]

/-- Strict order on characters (by code point, as in Python). -/
def charLt (a b : Char) : Bool := decide (a < b)

theorem charLt_irr (a : Char) : charLt a a = false := by simp [charLt]

theorem charLt_conn (a b : Char) : charLt a b = true ∨ charLt b a = true ∨ a = b := by
  rcases lt_trichotomy a b with h | h | h
  · left; simpa [charLt]
  · right; right; exact h
  · right; left; simpa [charLt]

theorem charLt_asym (a b : Char) : charLt a b = true → charLt b a = true → False := by
  simp only [charLt, decide_eq_true_eq]
  intro h1 h2; exact absurd h2 (not_lt_of_gt h1)

theorem charLt_trans (a b c : Char) :
    charLt a b = true → charLt b c = true → charLt a c = true := by
  simp only [charLt, decide_eq_true_eq]
  exact lt_trans

theorem charLt_tri (a b : Char) : charLt a b = false → charLt b a = false → a = b := by
  simp only [charLt, decide_eq_false_iff_not, not_lt]
  exact fun h1 h2 => le_antisymm h2 h1

/-- Lexicographic `<=` on modelled Python strings. -/
def lexLe : PStr → PStr → Bool := llexLe charLt

theorem lexLe_refl (l : PStr) : lexLe l l = true := llexLe_refl _ charLt_irr l

theorem lexLe_total (l m : PStr) : lexLe l m = true ∨ lexLe m l = true :=
  llexLe_total _ charLt_conn charLt_irr l m

theorem lexLe_trans (l m n : PStr) :
    lexLe l m = true → lexLe m n = true → lexLe l n = true :=
  llexLe_trans _ charLt_asym charLt_trans charLt_tri l m n

theorem lexLe_antisymm (l m : PStr) :
    lexLe l m = true → lexLe m l = true → l = m :=
  llexLe_antisymm _ charLt_asym charLt_tri l m

/-- Strict order on strings derived from `lexLe`. -/
def strLt (a b : PStr) : Bool := lexLe a b && !lexLe b a

theorem strLt_irr (a : PStr) : strLt a a = false := by simp [strLt, lexLe_refl]

theorem strLt_conn (a b : PStr) : strLt a b = true ∨ strLt b a = true ∨ a = b := by
  by_cases hab : lexLe a b = true
  · by_cases hba : lexLe b a = true
    · right; right; exact lexLe_antisymm a b hab hba
    · left; simp [strLt, hab, hba]
  · rcases lexLe_total a b with h | h
    · exact absurd h hab
    · right; left; simp [strLt, h, hab]

theorem strLt_asym (a b : PStr) : strLt a b = true → strLt b a = true → False := by
  simp only [strLt, Bool.and_eq_true, Bool.not_eq_true']
  rintro ⟨h1, h2⟩ ⟨h3, _⟩
  rw [h3] at h2; cases h2

theorem strLt_trans (a b c : PStr) :
    strLt a b = true → strLt b c = true → strLt a c = true := by
  simp only [strLt, Bool.and_eq_true, Bool.not_eq_true']
  rintro ⟨h1, h2⟩ ⟨h3, h4⟩
  refine ⟨lexLe_trans a b c h1 h3, ?_⟩
  by_cases hca : lexLe c a = true
  · have : lexLe c b = true := lexLe_trans c a b hca h1
    rw [this] at h4; cases h4
  · simpa using hca

theorem strLt_tri (a b : PStr) : strLt a b = false → strLt b a = false → a = b := by
  intro h1 h2
  rcases strLt_conn a b with h | h | h
  · rw [h] at h1; cases h1
  · rw [h] at h2; cases h2
  · exact h

/-- Lexicographic `<=` on tuples of strings (ordered key columns). -/
def tupLe : List PStr → List PStr → Bool := llexLe strLt

theorem tupLe_refl (l : List PStr) : tupLe l l = true := llexLe_refl _ strLt_irr l

theorem tupLe_total (l m : List PStr) : tupLe l m = true ∨ tupLe m l = true :=
  llexLe_total _ strLt_conn strLt_irr l m

theorem tupLe_trans (l m n : List PStr) :
    tupLe l m = true → tupLe m n = true → tupLe l n = true :=
  llexLe_trans _ strLt_asym strLt_trans strLt_tri l m n

/-! ### The Categorizer: `peel_layers` from categorize_urls.py

Source (categorize_urls.py, lines 59-83):

    bases = pd.Series([url.split('//')[-1].split('/')[0] for url in urls])
    sitemap_layers[0] = bases
    for layer in range(1, layers+1):
        page_layer = []
        for url, base in zip(urls, bases):
            try:
                page_layer.append(url.split(base)[-1].split('/')[layer])
            except:
                page_layer.append('')
        sitemap_layers[layer] = page_layer
    sitemap_layers = sitemap_layers.groupby(list(range(0, layers+1)))[0].count()
                     .rename('counts').reset_index()
                     .sort_values('counts', ascending=False)
                     .sort_values(list(range(0, layers)), ascending=True)
                     .reset_index(drop=True)
-/

/-- `url.split('//')[-1].split('/')[0]`: the host cell of a URL. -/
def hostOf (url : PStr) : PStr :=
  ((splitCh '/' ((pySplit url (S ("//"))).getLastD [])).headD [])

/-- `url.split(base)[-1].split('/')[layer]` wrapped in `try/except` appending `''`:
an empty `base` raises `ValueError` (empty separator) and a too-large index raises
`IndexError`; both are swallowed by the bare `except`, which appends `''`. -/
def segOf (url base : PStr) (layer : Nat) : PStr :=
  if base = [] then []
  else (((splitCh '/' ((pySplit url base).getLastD [])).get? layer).getD [])

/-- The full row of cells (columns `0..layers`) built for one URL. -/
def rowOf (url : PStr) (layers : Nat) : List PStr :=
  hostOf url :: (List.range' 1 layers).map (fun j => segOf url (hostOf url) j)

/-- Number of occurrences of `a` in `l` (instance-free multiplicity count). -/
def cnt [DecidableEq α] (a : α) (l : List α) : Nat :=
  (l.filter (fun x => decide (x = a))).length

/-- Pandas `groupby(cols)[0].count().rename('counts').reset_index()` over the full
row tuple: one `(key, group size)` pair per distinct key, keys in ascending order
(pandas groups sort their keys). -/
def groupRows (keys : List (List PStr)) : List (List PStr × Nat) :=
  ((sortBy tupLe keys).dedup).map (fun k => (k, cnt k keys))

/-- Comparator of `sort_values('counts', ascending=False)`. -/
def cgeP (x y : List PStr × Nat) : Bool := decide (y.2 ≤ x.2)

/-- Comparator of `sort_values(list(range(0, layers)), ascending=True)`: ascending
lexicographic order of the first `layers` columns (all key columns but the last). -/
def leadLe (d : Nat) (x y : List PStr × Nat) : Bool := tupLe (x.1.take d) (y.1.take d)

/-- `peel_layers(urls, layers)`: build one row per URL, group identical rows with
counts, sort by count descending, then (stably) by the leading columns ascending. -/
def peel_layers (urls : List PStr) (layers : Nat) : List (List PStr × Nat) :=
  sortBy (leadLe layers) (sortBy cgeP (groupRows (urls.map (fun u => rowOf u layers))))

example : peel_layers [S ("http://a.com/x/y"), S ("http://a.com/x/z"), S ("http://a.com/x/y")] 2
    = [(([S ("a.com"), S ("x"), S ("y")] : List PStr), 2),
       (([S ("a.com"), S ("x"), S ("z")] : List PStr), 1)] := by decide

example : peel_layers [S ("http://a.com")] 2
    = [(([S ("a.com"), [], []] : List PStr), 1)] := by decide

/-! ### C1: the counts column sums to the number of input URLs -/

theorem sum_map_add_split (L : List α) (f g : α → Nat) :
    (L.map (fun x => f x + g x)).sum = (L.map f).sum + (L.map g).sum := by
  induction L with
  | nil => simp
  | cons a t ih => simp [ih]; omega

theorem cnt_cons [DecidableEq α] (a b : α) (t : List α) :
    cnt a (b :: t) = cnt a t + if b = a then 1 else 0 := by
  by_cases h : b = a <;> simp [cnt, List.filter_cons, h]

theorem cnt_eq_zero [DecidableEq α] (a : α) (l : List α) (h : a ∉ l) : cnt a l = 0 := by
  induction l with
  | nil => rfl
  | cons b t ih =>
    have hba : b ≠ a := fun hc => h (hc ▸ List.mem_cons_self b t)
    rw [cnt_cons, ih (fun hc => h (List.mem_cons_of_mem b hc))]
    simp [hba]

theorem cnt_perm [DecidableEq α] (a : α) {l m : List α} (h : l.Perm m) :
    cnt a l = cnt a m := (h.filter _).length_eq

theorem cnt_nodup_one [DecidableEq α] (a : α) (l : List α)
    (hn : l.Nodup) (hm : a ∈ l) : cnt a l = 1 := by
  induction l with
  | nil => cases hm
  | cons b t ih =>
    rcases List.nodup_cons.1 hn with ⟨hbt, hnt⟩
    rcases List.mem_cons.1 hm with rfl | hmt
    · rw [cnt_cons, cnt_eq_zero a t hbt]; simp
    · have hba : b ≠ a := fun hc => hbt (hc ▸ hmt)
      rw [cnt_cons, ih hnt hmt]; simp [hba]

theorem sum_map_ite_cnt [DecidableEq α] (L : List α) (a : α) :
    (L.map (fun k => if a = k then 1 else 0)).sum = cnt a L := by
  induction L with
  | nil => rfl
  | cons b t ih =>
    rw [List.map_cons, List.sum_cons, ih, cnt_cons]
    by_cases h : b = a
    · subst h; simp [Nat.add_comm]
    · have h' : ¬a = b := fun hc => h hc.symm
      simp [h, h']

theorem sum_cnt_dedup [DecidableEq α] (l : List α) :
    (l.dedup.map (fun k => cnt k l)).sum = l.length := by
  induction l with
  | nil => simp
  | cons a t ih =>
    by_cases h : a ∈ t
    · rw [List.dedup_cons_of_mem h]
      have hmap : t.dedup.map (fun k => cnt k (a :: t))
          = t.dedup.map (fun k => cnt k t + if a = k then 1 else 0) := by
        apply List.map_congr_left
        intro x _
        rw [cnt_cons]
      rw [hmap, sum_map_add_split, ih, sum_map_ite_cnt,
        cnt_nodup_one a t.dedup (List.nodup_dedup t) (List.mem_dedup.2 h)]
      simp
    · rw [List.dedup_cons_of_not_mem h]
      simp only [List.map_cons, List.sum_cons]
      have hmap : t.dedup.map (fun k => cnt k (a :: t))
          = t.dedup.map (fun k => cnt k t) := by
        apply List.map_congr_left
        intro x hx
        have hxa : a ≠ x := by
          intro hc; subst hc; exact h (List.mem_dedup.1 hx)
        rw [cnt_cons]; simp [hxa]
      rw [hmap, ih, cnt_cons, cnt_eq_zero a t h]
      simp [Nat.add_comm]

theorem sum_counts_groupRows (keys : List (List PStr)) :
    ((groupRows keys).map (fun p => p.2)).sum = keys.length := by
  unfold groupRows
  rw [List.map_map]
  have hperm : (sortBy tupLe keys).Perm keys := perm_sortBy _ _
  have hmap : (sortBy tupLe keys).dedup.map ((fun p : List PStr × Nat => p.2) ∘
        (fun k => (k, cnt k keys)))
      = (sortBy tupLe keys).dedup.map (fun k => cnt k (sortBy tupLe keys)) := by
    apply List.map_congr_left
    intro x _
    simpa using (cnt_perm x hperm).symm
  rw [hmap, sum_cnt_dedup]
  exact hperm.length_eq

/-- C1: for every input URL sequence and every depth, the counts column of the
table produced by `peel_layers` sums to the number of input URLs. -/
theorem C1_counts_sum_eq_num_urls (urls : List PStr) (layers : Nat) :
    ((peel_layers urls layers).map (fun p => p.2)).sum = urls.length := by
  unfold peel_layers
  have h2 : (sortBy (leadLe layers) (sortBy cgeP
      (groupRows (urls.map (fun u => rowOf u layers))))).Perm
      (groupRows (urls.map (fun u => rowOf u layers))) :=
    (perm_sortBy _ _).trans (perm_sortBy _ _)
  have := (h2.map (fun p : List PStr × Nat => p.2)).sum_eq
  rw [this, sum_counts_groupRows, List.length_map]

/-! ### C2: sort invariant of the output table -/

theorem cgeP_total (x y : List PStr × Nat) : cgeP x y = true ∨ cgeP y x = true := by
  simp only [cgeP, decide_eq_true_eq]
  omega

theorem cgeP_trans (x y z : List PStr × Nat) :
    cgeP x y = true → cgeP y z = true → cgeP x z = true := by
  simp only [cgeP, decide_eq_true_eq]
  omega

theorem leadLe_total (d : Nat) (x y : List PStr × Nat) :
    leadLe d x y = true ∨ leadLe d y x = true := tupLe_total _ _

theorem leadLe_trans (d : Nat) (x y z : List PStr × Nat) :
    leadLe d x y = true → leadLe d y z = true → leadLe d x z = true :=
  tupLe_trans _ _ _

/-- C2: rows of `peel_layers` are ordered by ascending lexicographic order of all
key columns except the last, and among rows that agree on those leading columns
the counts are non-increasing. -/
theorem C2_sort_invariant (urls : List PStr) (layers : Nat) :
    (peel_layers urls layers).Pairwise (fun a b =>
      tupLe (a.1.take layers) (b.1.take layers) = true ∧
      (a.1.take layers = b.1.take layers → b.2 ≤ a.2)) := by
  unfold peel_layers
  have h1 : (sortBy cgeP (groupRows (urls.map (fun u => rowOf u layers)))).Pairwise
      (fun a b => b.2 ≤ a.2) := by
    have := sorted_sortBy cgeP cgeP_total cgeP_trans
      (groupRows (urls.map (fun u => rowOf u layers)))
    exact this.imp (fun h => by simpa [cgeP] using h)
  have h2 := pairwise_sortBy (leadLe layers) (fun a b => b.2 ≤ a.2)
    (leadLe_total layers) (leadLe_trans layers) _ h1
  refine h2.imp ?_
  rintro a b ⟨hle, htie⟩
  refine ⟨hle, fun heq => htie ?_⟩
  show tupLe (b.1.take layers) (a.1.take layers) = true
  rw [heq]
  exact tupLe_refl _

/-! ### C9: depth 0 gives one row per distinct host with total URL counts -/

theorem leadLe_zero (x y : List PStr × Nat) : leadLe 0 x y = true := by
  simp [leadLe, tupLe, llexLe]

theorem cnt_singleton_map {α : Type _} [DecidableEq α] (g : α → PStr) (l : List α) (h : PStr) :
    cnt [h] (l.map (fun x => [g x])) = (l.filter (fun x => decide (g x = h))).length := by
  induction l with
  | nil => rfl
  | cons b t ih =>
    rw [List.map_cons, cnt_cons, ih, List.filter_cons]
    by_cases hb : g b = h
    · simp [hb]
    · have hb' : ¬ [g b] = [h] := by simpa using hb
      simp [hb, hb']

theorem rowOf_zero (u : PStr) : rowOf u 0 = [hostOf u] := rfl

/-- C9: at depth 0, `peel_layers` yields a table with pairwise-distinct keys, one
row `([host], n)` for a host exactly when some input URL has that host, with `n`
the number of input URLs whose host it is. -/
theorem C9_depth_zero (urls : List PStr) :
    ((peel_layers urls 0).map (fun p => p.1)).Nodup ∧
    (∀ p ∈ peel_layers urls 0, ∃ h, p.1 = [h] ∧
      p.2 = (urls.filter (fun v => decide (hostOf v = h))).length) ∧
    (∀ u ∈ urls, ∃ p ∈ peel_layers urls 0, p.1 = [hostOf u]) := by
  have hkeys : urls.map (fun u => rowOf u 0) = urls.map (fun u => [hostOf u]) := by
    apply List.map_congr_left; intro u _; rfl
  have hT : peel_layers urls 0
      = sortBy cgeP (groupRows (urls.map (fun u => rowOf u 0))) := by
    unfold peel_layers
    exact sortBy_of_true (leadLe 0) leadLe_zero _
  have hperm : (peel_layers urls 0).Perm
      (groupRows (urls.map (fun u => rowOf u 0))) := by
    rw [hT]; exact perm_sortBy _ _
  refine ⟨?_, ?_, ?_⟩
  · have hpm := hperm.map (fun p : List PStr × Nat => p.1)
    apply hpm.nodup_iff.2
    unfold groupRows
    rw [List.map_map]
    have : ((fun p : List PStr × Nat => p.1) ∘ (fun k =>
        (k, cnt k (urls.map (fun u => rowOf u 0))))) = id := by
      funext k; rfl
    rw [this, List.map_id]
    exact List.nodup_dedup _
  · intro p hp
    have hp' := hperm.mem_iff.1 hp
    unfold groupRows at hp'
    rcases List.mem_map.1 hp' with ⟨k, hk, rfl⟩
    have hkmem : k ∈ urls.map (fun u => rowOf u 0) :=
      mem_sortBy.1 (List.mem_dedup.1 hk)
    rcases List.mem_map.1 hkmem with ⟨u, _, rfl⟩
    refine ⟨hostOf u, rfl, ?_⟩
    show cnt (rowOf u 0) (urls.map (fun u => rowOf u 0)) = _
    rw [hkeys, rowOf_zero, cnt_singleton_map]
  · intro u hu
    refine ⟨(rowOf u 0, cnt (rowOf u 0) (urls.map (fun v => rowOf v 0))), ?_, rfl⟩
    apply hperm.mem_iff.2
    unfold groupRows
    apply List.mem_map.2
    refine ⟨rowOf u 0, ?_, rfl⟩
    exact List.mem_dedup.2 (mem_sortBy.2 (List.mem_map.2 ⟨u, hu, rfl⟩))

/-! ### Substring membership (Python `in` on strings) -/

/-- Python `pat in s` for strings. -/
def containsSub (s pat : PStr) : Bool :=
  match s with
  | [] => pat.isPrefixOf []
  | x :: xs => pat.isPrefixOf (x :: xs) || containsSub xs pat

/-- A split along a separator that occurs nowhere returns the whole string. -/
theorem pySplitAux_of_not_contains (sep : PStr) (fuel : Nat) (l : PStr)
    (h : containsSub l sep = false) : pySplitAux sep fuel l = [l] := by
  induction fuel generalizing l with
  | zero => cases l <;> rfl
  | succ n ih =>
    cases l with
    | nil => rfl
    | cons x xs =>
      rcases Bool.or_eq_false_iff.1 h with ⟨h1, h2⟩
      rw [pySplitAux]
      rw [h1]
      simp only [Bool.false_eq_true, if_false]
      rw [ih xs h2]

theorem pySplit_of_not_contains (l sep : PStr) (h : containsSub l sep = false) :
    pySplit l sep = [l] := pySplitAux_of_not_contains sep l.length l h

/-- The head of a single-character split is the longest prefix free of that
character. -/
theorem splitCh_headD (c : Char) (l : PStr) :
    (splitCh c l).headD [] = l.takeWhile (fun x => decide (x ≠ c)) := by
  induction l with
  | nil => rfl
  | cons x xs ih =>
    by_cases h : x = c
    · subst h; simp [splitCh, List.takeWhile]
    · rw [List.takeWhile_cons]
      simp only [decide_not, h, decide_False, Bool.not_false, if_true]
      rw [splitCh]
      simp only [h, if_false]
      cases hs : splitCh c xs with
      | nil => exact absurd hs (splitCh_ne_nil c xs)
      | cons r rs =>
        rw [hs] at ih
        simp only [List.headD] at ih ⊢
        rw [ih]
        simp [decide_not]

/-! ### C6: behaviour of host extraction on strings without a scheme separator -/

/-- C6 (counterexample): on the malformed URL string "abc/def" (no "//"), the
code's host extraction yields "abc" — neither the whole string nor the empty
string — and further path segments are still derived from the remainder, so
neither handling rule allowed by the claim matches the code. -/
theorem C6_counterexample :
    hostOf (S ("abc/def")) = S ("abc") ∧
    S ("abc") ≠ S ("abc/def") ∧
    S ("abc") ≠ ([] : PStr) ∧
    segOf (S ("abc/def")) (S ("abc")) 1 = S ("def") ∧
    rowOf (S ("abc/def")) 1 = [S ("abc"), S ("def")] := by
  refine ⟨by decide, by decide, by decide, by decide, by decide⟩

/-- C6 (amended): for every string without "//", host extraction does not raise
and follows one deterministic rule — the host is the longest prefix of the whole
string not containing '/'. -/
theorem C6_amended_host_rule (s : PStr) (h : containsSub s (S ("//")) = false) :
    hostOf s = s.takeWhile (fun x => decide (x ≠ '/')) := by
  unfold hostOf
  rw [pySplit_of_not_contains s (S ("//")) h]
  simp only [List.getLastD]
  exact splitCh_headD '/' s

theorem C6_amended_host_rule_witness :
    containsSub (S ("abc/def")) (S ("//")) = false ∧
    hostOf (S ("abc/def")) = (S ("abc/def")).takeWhile (fun x => decide (x ≠ '/')) :=
  ⟨by decide, C6_amended_host_rule (S ("abc/def")) (by decide)⟩

/-! ### C3: which occurrence of the host the segment derivation follows -/

/-- Modelled from the spec's words in claim C3: the portion of the URL strictly
following the FIRST occurrence of the host substring (empty when the host does
not occur). -/
def afterFirstOcc (s t : PStr) : PStr :=
  match s with
  | [] => []
  | x :: xs => if t.isPrefixOf (x :: xs) then (x :: xs).drop t.length else afterFirstOcc xs t

/-- Modelled from the spec's words in claim C3: split the portion after the
first occurrence of the host on '/', take position `j`, empty string when the
position does not exist. -/
def specSegFirstOcc (url host : PStr) (j : Nat) : PStr :=
  (((splitCh '/' (afterFirstOcc url host)).get? j).getD [])

/-- The portion of `s` after the final separator occurrence found by Python's
left-to-right non-overlapping scan; `s` itself when the separator does not
occur (fuel-driven, fuel the length of `s`). -/
def afterLastScan (t : PStr) : Nat → PStr → PStr
  | _, [] => []
  | 0, s => s
  | fuel + 1, x :: xs =>
    if t.isPrefixOf (x :: xs) then afterLastScan t fuel ((x :: xs).drop t.length)
    else if containsSub xs t then afterLastScan t fuel xs
    else x :: xs

def lastRemainder (s t : PStr) : PStr := afterLastScan t s.length s

theorem getLastD_of_ne_nil (l : List α) (h : l ≠ []) (d d' : α) :
    l.getLastD d = l.getLastD d' := by
  cases l with
  | nil => exact absurd rfl h
  | cons a t => rw [List.getLastD_cons, List.getLastD_cons]

/-- A split along a separator that does occur has at least two chunks. -/
theorem pySplitAux_of_contains (sep : PStr) (hsep : sep ≠ []) (fuel : Nat) :
    ∀ l : PStr, containsSub l sep = true → l.length ≤ fuel →
      ∃ r rs, pySplitAux sep fuel l = r :: rs ∧ rs ≠ [] := by
  induction fuel with
  | zero =>
    intro l hc hlen
    cases l with
    | nil =>
      cases sep with
      | nil => exact absurd rfl hsep
      | cons a b => exact absurd hc (by simp [containsSub, List.isPrefixOf])
    | cons x xs => simp at hlen
  | succ n ih =>
    intro l hc hlen
    cases l with
    | nil =>
      cases sep with
      | nil => exact absurd rfl hsep
      | cons a b => exact absurd hc (by simp [containsSub, List.isPrefixOf])
    | cons x xs =>
      by_cases hp : sep.isPrefixOf (x :: xs)
      · refine ⟨[], pySplitAux sep n ((x :: xs).drop sep.length), ?_, ?_⟩
        · rw [pySplitAux, if_pos hp]
        · exact pySplitAux_ne_nil sep n _
      · have hc' : containsSub xs sep = true := by
          rcases Bool.or_eq_true_iff.1 hc with h | h
          · exact absurd h hp
          · exact h
        rcases ih xs hc' (by simpa using Nat.le_of_succ_le_succ hlen) with ⟨r, rs, hrs, hne⟩
        refine ⟨x :: r, rs, ?_, hne⟩
        rw [pySplitAux, if_neg hp, hrs]

/-- The last chunk of a Python split is exactly the remainder after the last
occurrence found by the left-to-right scan. -/
theorem pySplitAux_getLastD (sep : PStr) (hsep : sep ≠ []) (fuel : Nat) :
    ∀ l : PStr, l.length ≤ fuel →
      (pySplitAux sep fuel l).getLastD [] = afterLastScan sep fuel l := by
  induction fuel with
  | zero =>
    intro l hlen
    cases l with
    | nil => rfl
    | cons x xs => simp at hlen
  | succ n ih =>
    intro l hlen
    cases l with
    | nil => rfl
    | cons x xs =>
      have hlen' : xs.length ≤ n := by
        simpa using Nat.le_of_succ_le_succ hlen
      by_cases hp : sep.isPrefixOf (x :: xs)
      · have hdrop : ((x :: xs).drop sep.length).length ≤ n := by
          have h1 : 1 ≤ sep.length := by
            cases sep with
            | nil => exact absurd rfl hsep
            | cons a b => simp
          rw [List.length_drop]
          simp only [List.length_cons] at hlen ⊢
          omega
        simp only [pySplitAux, afterLastScan, hp, if_true, List.getLastD_cons]
        exact ih _ hdrop
      · cases hcont : containsSub xs sep with
        | false =>
          simp only [pySplitAux, afterLastScan, hp, hcont, Bool.false_eq_true,
            if_false, pySplitAux_of_not_contains sep n xs hcont]
          rfl
        | true =>
          rcases pySplitAux_of_contains sep hsep n xs hcont hlen' with ⟨r, rs, hrs, hne⟩
          have ihx := ih xs hlen'
          rw [hrs] at ihx
          simp only [pySplitAux, afterLastScan, hp, hcont, Bool.false_eq_true,
            if_false, if_true, hrs]
          rw [List.getLastD_cons, getLastD_of_ne_nil rs hne (x :: r) r]
          rw [List.getLastD_cons] at ihx
          exact ihx

/-- C3 (counterexample): for the URL "http://a.com/x/a.com/y", in which the host
"a.com" occurs twice, the code derives segment 1 from the portion after the
LAST occurrence ("y"), while the claim's rule (portion after the FIRST
occurrence) yields "x". -/
theorem C3_counterexample :
    hostOf (S ("http://a.com/x/a.com/y")) = S ("a.com") ∧
    segOf (S ("http://a.com/x/a.com/y")) (S ("a.com")) 1 = S ("y") ∧
    peel_layers [S ("http://a.com/x/a.com/y")] 1 = [([S ("a.com"), S ("y")], 1)] ∧
    specSegFirstOcc (S ("http://a.com/x/a.com/y")) (S ("a.com")) 1 = S ("x") ∧
    S ("y") ≠ S ("x") :=
  ⟨by decide, by decide, by decide, by decide, by decide⟩

/-- C3 (amended): for every URL whose extracted host is non-empty, segment `j`
is position `j` of the '/'-split of the portion of the URL following the LAST
occurrence of the host found by a left-to-right non-overlapping scan, with the
empty string substituted for any position that does not exist; no error is
raised (the function is total). -/
theorem C3_amended_last_occurrence (url : PStr) (hb : hostOf url ≠ []) (j : Nat) :
    segOf url (hostOf url) j
      = (((splitCh '/' (lastRemainder url (hostOf url))).get? j).getD []) := by
  unfold segOf lastRemainder pySplit
  rw [if_neg hb]
  rw [pySplitAux_getLastD (hostOf url) hb url.length url (Nat.le_refl _)]

theorem C3_amended_last_occurrence_witness :
    hostOf (S ("http://a.com/x/a.com/y")) ≠ [] ∧
    segOf (S ("http://a.com/x/a.com/y")) (hostOf (S ("http://a.com/x/a.com/y"))) 1
      = (((splitCh '/' (lastRemainder (S ("http://a.com/x/a.com/y"))
          (hostOf (S ("http://a.com/x/a.com/y"))))).get? 1).getD []) :=
  ⟨by decide, C3_amended_last_occurrence (S ("http://a.com/x/a.com/y")) (by decide) 1⟩

/-! ### The Extractor: `get_urls` / `get_all_urls` from extract_urls.py -/

/-- Python `u[-3:]`: the last three characters (the whole string if shorter). -/
def lastThree (u : PStr) : PStr := u.drop (u.length - 3)

/-- `get_urls(url)`: fetch a page and parse the text of its loc elements.  The
network fetch and parse are external effects, modelled by the `fetch`
parameter, which returns either the parsed loc texts or the exception raised.
`get_urls` adds no error handling of its own. -/
def get_urls (fetch : PStr → Except String (List PStr)) (url : PStr) :
    Except String (List PStr) := fetch url

/-- The accumulation loop of `get_all_urls`:
`for i, url in enumerate(urls): links = get_urls(url); sitemap_urls += links`.
An exception from `get_urls` has no surrounding try/except and propagates. -/
def loopUrls (fetch : PStr → Except String (List PStr)) :
    List PStr → List PStr → Except String (List PStr)
  | acc, [] => .ok acc
  | acc, url :: rest =>
    match get_urls fetch url with
    | .error e => .error e
    | .ok links => loopUrls fetch (acc ++ links) rest

/-- `get_all_urls(sitemap_url)` (extract_urls.py lines 83-101): fetch the index,
keep the children not ending in ".gz" (the ignored-file warning loop does not
affect the result), then accumulate `get_urls` over the remaining children. -/
def get_all_urls (fetch : PStr → Except String (List PStr)) (sitemap_url : PStr) :
    Except String (List PStr) :=
  match get_urls fetch sitemap_url with
  | .error e => .error e
  | .ok urls => loopUrls fetch []
      (urls.filter (fun u => decide (lastThree u ≠ S (".gz"))))

/-- A concrete fetch environment: index "idx" lists three children; child "c2"
raises while "c1" and "c3" succeed. -/
def fetchC5 : PStr → Except String (List PStr) := fun u =>
  if u = S ("idx") then .ok [S ("c1"), S ("c2"), S ("c3")]
  else if u = S ("c1") then .ok [S ("u1")]
  else if u = S ("c2") then .error ("boom")
  else if u = S ("c3") then .ok [S ("u3")]
  else .error ("404")

/-- C5 (counterexample): with one failing child among three, `get_all_urls`
does not return the URLs of the children that succeeded — the child's exception
aborts the whole run. -/
theorem C5_counterexample :
    get_all_urls fetchC5 (S ("idx")) = .error ("boom") ∧
    ∀ l : List PStr, get_all_urls fetchC5 (S ("idx")) ≠ .ok l := by
  have h1 : get_all_urls fetchC5 (S ("idx")) = .error ("boom") := rfl
  exact ⟨h1, fun l h => by rw [h1] at h; cases h⟩

/-- C5 (amended): in index mode, when fetching or parsing one child document
fails, the failure propagates: `get_all_urls` returns that child's error and no
accumulated URL list. -/
theorem C5_amended_child_failure_aborts
    (fetch : PStr → Except String (List PStr)) (root : PStr)
    (urls pre post : List PStr) (c : PStr) (e : String)
    (hroot : fetch root = .ok urls)
    (hsplit : urls.filter (fun u => decide (lastThree u ≠ S (".gz")))
      = pre ++ c :: post)
    (hpre : ∀ p ∈ pre, ∃ l, fetch p = .ok l)
    (hc : fetch c = .error e) :
    get_all_urls fetch root = .error e := by
  unfold get_all_urls get_urls
  rw [hroot]
  show loopUrls fetch []
    (urls.filter (fun u => decide (lastThree u ≠ S (".gz")))) = .error e
  rw [hsplit]
  have hloop : ∀ (pre' : List PStr) (acc : List PStr),
      (∀ p ∈ pre', ∃ l, fetch p = .ok l) →
      loopUrls fetch acc (pre' ++ c :: post) = .error e := by
    intro pre'
    induction pre' with
    | nil =>
      intro acc _
      simp only [List.nil_append, loopUrls, get_urls, hc]
    | cons p rest ih =>
      intro acc hall
      rcases hall p (by simp) with ⟨l, hl⟩
      simp only [List.cons_append, loopUrls, get_urls, hl]
      exact ih (acc ++ l) (fun q hq => hall q (by simp [hq]))
  exact hloop pre [] hpre

theorem C5_amended_child_failure_aborts_witness :
    get_all_urls fetchC5 (S ("idx")) = .error ("boom") :=
  C5_amended_child_failure_aborts fetchC5 (S ("idx"))
    [S ("c1"), S ("c2"), S ("c3")] [S ("c1")] [S ("c3")] (S ("c2")) ("boom")
    rfl (by decide)
    (by intro p hp
        simp only [List.mem_singleton] at hp
        exact ⟨[S ("u1")], by rw [hp]; rfl⟩)
    rfl

/-! ### The Renderer: graphviz quoting (graphviz 0.8 lang.py) -/

def isAlphaUnd (c : Char) : Bool := c.isAlpha || c = '_'

def isAlnumUnd (c : Char) : Bool := c.isAlphanum || c = '_'

/-- The letter-identifier alternative of graphviz's ID regex:
`[a-zA-Z_][a-zA-Z0-9_]*`. -/
def gvLetterId : PStr → Bool
  | [] => false
  | c :: cs => isAlphaUnd c && cs.all isAlnumUnd

/-- Matcher for the rest of `\d+(\.\d*)?` after at least one digit was seen. -/
def intRest : PStr → Bool
  | [] => true
  | c :: cs => if c = '.' then cs.all Char.isDigit else c.isDigit && intRest cs

/-- Matcher for `\d+(\.\d*)?`. -/
def digits1Dot : PStr → Bool
  | [] => false
  | c :: cs => c.isDigit && intRest cs

/-- Matcher for `\.\d+`. -/
def dotDigits : PStr → Bool
  | [] => false
  | c :: cs => decide (c = '.') && (!cs.isEmpty && cs.all Char.isDigit)

/-- The numeral alternative of graphviz's ID regex: `-?(\.\d+|\d+(\.\d*)?)`. -/
def gvNumeral (l : PStr) : Bool :=
  match l with
  | [] => false
  | c :: cs =>
    if c = '-' then dotDigits cs || digits1Dot cs
    else dotDigits (c :: cs) || digits1Dot (c :: cs)

/-- graphviz: does the string match the unquoted-identifier pattern? -/
def isGvId (l : PStr) : Bool := gvLetterId l || gvNumeral l

/-- graphviz: case-insensitive dot keywords, which are always quoted. -/
def isGvKeyword (l : PStr) : Bool :=
  let low := l.map Char.toLower
  decide (low = S ("node")) || decide (low = S ("edge")) || decide (low = S ("graph")) ||
  decide (low = S ("digraph")) || decide (low = S ("subgraph")) || decide (low = S ("strict"))

/-- graphviz: HTML-like strings `<...>` are emitted verbatim. -/
def isHtml (l : PStr) : Bool :=
  match l with
  | [] => false
  | c :: cs => decide (c = '<') && decide ((c :: cs).getLast? = some '>')

/-- Python `s.replace('"', '\\"')` as used by graphviz quoting. -/
def escapeQuotes : PStr → PStr
  | [] => []
  | c :: cs => if c = '"' then '\\' :: '"' :: escapeQuotes cs else c :: escapeQuotes cs

/-- graphviz `quote`: emit HTML strings and identifiers verbatim, and wrap
everything else (and keywords) in double quotes, escaping inner quotes. -/
def quoteGv (l : PStr) : PStr :=
  if isHtml l then l
  else if !isGvId l || isGvKeyword l then '"' :: (escapeQuotes l ++ ['"'])
  else l

/-- Python `s.partition(c)` (split at the first occurrence only). -/
def pyPartition (l : PStr) (c : Char) : PStr × Option PStr :=
  match l with
  | [] => ([], none)
  | x :: xs =>
    if x = c then ([], some xs)
    else
      let p := pyPartition xs c
      (x :: p.1, p.2)

/-- graphviz `quote_edge`: split on ':' into node, port and compass parts and
quote the first two. -/
def quoteEdgeGv (l : PStr) : PStr :=
  match pyPartition l ':' with
  | (node, none) => quoteGv node
  | (node, some rest) =>
    if rest = [] then quoteGv node
    else
      match pyPartition rest ':' with
      | (port, none) => quoteGv node ++ ':' :: quoteGv port
      | (port, some compass) =>
        if compass = [] then quoteGv node ++ ':' :: quoteGv port
        else quoteGv node ++ ':' :: quoteGv port ++ ':' :: compass

/-! ### Integer formatting `'{:,}'.format(n)` -/

def digitChar (n : Nat) : Char := Char.ofNat (48 + n)

def natDigitsAux : Nat → Nat → PStr
  | 0, _ => []
  | fuel + 1, n =>
    if n < 10 then [digitChar n]
    else natDigitsAux fuel (n / 10) ++ [digitChar (n % 10)]

def natDigits (n : Nat) : PStr := natDigitsAux (n + 1) n

def addCommasRev : PStr → Nat → PStr
  | [], _ => []
  | [c], _ => [c]
  | c :: cs, i =>
    if i % 3 = 2 then c :: ',' :: addCommasRev cs (i + 1)
    else c :: addCommasRev cs (i + 1)

/-- `'{:,}'.format(n)`: decimal digits with a thousands separator. -/
def commaFmt (n : Nat) : PStr := (addCommasRev (natDigits n).reverse 0).reverse

/-! ### The graphviz body and the scan in `add_branch` -/

/-- One entry of `f.body`: a raw extend/attr string, a node statement, or an
edge statement (kept structured; `renderLine` gives the exact string the
graphviz library appends to `f.body`). -/
inductive BodyLine where
  | raw (s : PStr)
  | node (name label : PStr)
  | edge (tail head label : PStr)
deriving DecidableEq

/-- The exact string of a body entry (graphviz 0.8 `_node`, `_edge`, `_attr`
templates). -/
def renderLine : BodyLine → PStr
  | .raw s => s
  | .node n lbl => '\t' :: (quoteGv n ++ S (" [label=") ++ quoteGv lbl ++ S ("]"))
  | .edge t h lbl =>
    '\t' :: (quoteEdgeGv t ++ S (" -> ") ++ quoteEdgeGv h ++ S (" [label=") ++
      quoteGv lbl ++ S ("]"))

/-- Python `'label' in item`. -/
def hasLabel (l : PStr) : Bool := containsSub l (S ("label"))

/-- `node_names = [item.split('"')[1] for item in f.body if 'label' in item]`:
`none` models the `IndexError` raised when a label-bearing line has fewer than
two quote characters. -/
def nodeNamesOf : List BodyLine → Option (List PStr)
  | [] => some []
  | b :: bs =>
    if hasLabel (renderLine b) then
      match (splitCh '"' (renderLine b)).get? 1 with
      | some n => (nodeNamesOf bs).map (fun ns => n :: ns)
      | none => none
    else nodeNamesOf bs

/-- `'%s-%s' % (connect_to, name)`: the name of a child node. -/
def childName (c n : PStr) : PStr := c ++ '-' :: n

/-- `'-'.join(parts)`. -/
def joinDash : List PStr → PStr
  | [] => []
  | [x] => x
  | x :: xs => x ++ '-' :: joinDash xs

/-- Python `l[:limit]` including negative-limit slicing. -/
def pyTake (limit : Int) (l : List α) : List α :=
  if 0 ≤ limit then l.take limit.toNat else l.take (l.length - (-limit).toNat)

/-- `add_branch(f, names, vals, limit, connect_to)` (visualize_urls.py lines
88-99): scan the body for node names, and only when `connect_to` is non-empty
and found among them, append one node and one edge per `(name, val)` pair of
`list(zip(names, vals))[:limit]`. -/
def add_branch (body : List BodyLine) (names : List PStr) (vals : List Nat)
    (limit : Int) (connect_to : PStr) : Except String (List BodyLine) :=
  match nodeNamesOf body with
  | none => .error ("IndexError")
  | some node_names =>
    if connect_to ≠ [] then
      if connect_to ∈ node_names then
        .ok (body ++ (pyTake limit (names.zip vals)).flatMap (fun p =>
          [.node (childName connect_to p.1) p.1,
           .edge connect_to (childName connect_to p.1) (commaFmt p.2)]))
      else .ok body
    else .ok body

/-! ### The table consumed by the Renderer -/

/-- The dataframe read from sitemap_layers.csv: `segCols` segment columns named
'0'..'segCols-1' plus the integer `counts` column; each row is its segment
cells with its count. -/
structure DF where
  segCols : Nat
  rows : List (List PStr × Nat)

/-- Cell of row `r` in segment column `i`. -/
def colAt (i : Nat) (r : List PStr × Nat) : PStr := (r.1.get? i).getD []

/-- Comparator of `sort_values(['counts'], ascending=False)` on value/sum pairs. -/
def cgeS (x y : PStr × Nat) : Bool := decide (y.2 ≤ x.2)

/-- `df.groupby([col])['counts'].sum().reset_index().sort_values(['counts'],
ascending=False)`: distinct key values (pandas sorts group keys ascending),
summed counts, then stably sorted by sum descending. -/
def groupSumBy (f : List PStr × Nat → PStr) (rows : List (List PStr × Nat)) :
    List (PStr × Nat) :=
  sortBy cgeS (((sortBy lexLe (rows.map f)).dedup).map (fun v =>
    (v, ((rows.filter (fun r => decide (f r = v))).map (fun r => r.2)).sum)))

/-- First-occurrence deduplication (pandas `drop_duplicates`). -/
def dedupFAux [DecidableEq α] (seen : List α) : List α → List α
  | [] => []
  | a :: l => if a ∈ seen then dedupFAux seen l else a :: dedupFAux (a :: seen) l

def dedupF [DecidableEq α] (l : List α) : List α := dedupFAux [] l

/-- The body of the per-layer loop over `nodes = df[cols].drop_duplicates()`:
`data = df[mask].groupby([str(i)])['counts'].sum().reset_index()
       .sort_values(['counts'], ascending=False)`
followed by the `add_branch` call with `connect_to = '-'.join(...) % tuple(k)`.
Accessing the missing column `str(i)` raises `KeyError` when `i >= segCols`. -/
def processNodes (df : DF) (limit : Int) (i : Nat) :
    List (List PStr) → List BodyLine → Except String (List BodyLine)
  | [], body => .ok body
  | k :: ks, body =>
    if df.segCols ≤ i then .error ("KeyError")
    else
      match add_branch body
          ((groupSumBy (colAt i) (df.rows.filter
            (fun r => decide (r.1.take i = k)))).map (fun p => p.1))
          ((groupSumBy (colAt i) (df.rows.filter
            (fun r => decide (r.1.take i = k)))).map (fun p => p.2))
          limit (joinDash k) with
      | .error e => .error e
      | .ok body' => processNodes df limit i ks body'

/-- `for i in range(1, layers+1)`: `df[cols]` with `cols = range(i)` raises
`KeyError` when `i > segCols`; otherwise process each distinct leading tuple. -/
def processLayers (df : DF) (limit : Int) :
    List Nat → List BodyLine → Except String (List BodyLine)
  | [], body => .ok body
  | i :: rest, body =>
    if df.segCols < i then .error ("KeyError")
    else
      match processNodes df limit i (dedupF (df.rows.map (fun r => r.1.take i))) body with
      | .error e => .error e
      | .ok body' => processLayers df limit rest body'

/-- `if layers > len(df) - 1: layers = len(df) - 1`: the clamped layer count
(`len(df)` is the number of rows of the dataframe). -/
def clampL (df : DF) (layers : Int) : Int :=
  if layers > (df.rows.length : Int) - 1 then (df.rows.length : Int) - 1 else layers

/-- The body before the per-layer loop: the raw `rankdir`/`size` lines, the
rectangle node attribute, and one node per distinct column-'0' value labelled
`'{} ({:,})'.format(name, counts)` (descending by summed counts). -/
def initBody (df : DF) (size : PStr) : List BodyLine :=
  [.raw (S ("rankdir=LR")), .raw (S ("size=\x22") ++ size ++ ['"']),
   .raw (S ("\tnode [shape=rectangle]"))]
  ++ (groupSumBy (colAt 0) df.rows).map (fun p =>
    .node p.1 (p.1 ++ S (" (") ++ commaFmt p.2 ++ S (")")))

/-- `make_sitemap_graph(df, layers, limit, size)` (visualize_urls.py lines
60-140): clamp `layers` against `len(df) - 1` (the number of ROWS minus one),
extend the body with the raw attribute lines, add one rectangle node per
distinct column-'0' value with summed counts (sorted descending), return at
`layers == 0`, then loop over layers adding branches.  `df.groupby(['0'])`
raises `KeyError` when there is no segment column. -/
def make_sitemap_graph (df : DF) (layers limit : Int) (size : PStr) :
    Except String (List BodyLine) :=
  if df.segCols = 0 then .error ("KeyError")
  else if clampL df layers = 0 then .ok (initBody df size)
  else processLayers df limit (List.range' 1 (clampL df layers).toNat)
    (initBody df size ++ [.raw (S ("\tnode [shape=oval]"))])

/-! ### C4: the depth clamp uses the row count, not the column count -/

/-- A depth-1 table (segment columns '0','1') with five rows. -/
def dfC4a : DF :=
  ⟨2, [([S ("h.h"), S ("a")], 1), ([S ("h.h"), S ("b")], 1), ([S ("h.h"), S ("c")], 1),
       ([S ("h.h"), S ("d")], 1), ([S ("h.h"), S ("e")], 1)]⟩

/-- A depth-2 table (segment columns '0','1','2') with only two rows. -/
def dfC4b : DF :=
  ⟨3, [([S ("h.h"), S ("x"), S ("y")], 1), ([S ("h.h"), S ("x"), S ("z")], 1)]⟩

/-- C4 (code evaluated at the failing input): `make_sitemap_graph` clamps
against `len(df) - 1`, the number of ROWS minus one, not the column count.
On a 5-row, 2-segment-column table with depth 3 no clamping happens
(3 <= 5 - 1) and the missing column '2' raises `KeyError` instead of the
claimed warn-and-clamp.  Dually, on a 2-row, 3-segment-column table a legal
depth 2 is wrongly clamped to 1 and layer 2 is never plotted. -/
theorem C4_clamp_uses_row_count :
    make_sitemap_graph dfC4a 3 50 (S ("8,5")) = .error ("KeyError") ∧
    make_sitemap_graph dfC4b 2 50 (S ("8,5")) = .ok
      [.raw (S ("rankdir=LR")), .raw (S ("size=\x228,5\x22")),
       .raw (S ("\tnode [shape=rectangle]")),
       .node (S ("h.h")) (S ("h.h (2)")), .raw (S ("\tnode [shape=oval]")),
       .node (S ("h.h-x")) (S ("x")), .edge (S ("h.h")) (S ("h.h-x")) (S ("2"))] := by
  exact ⟨rfl, rfl⟩

/-! ### C10: node identity is the '-'-joined path, which is not injective -/

def dfC10 : DF :=
  ⟨2, [([S ("a.a"), S ("b-c")], 1), ([S ("a.a-b"), S ("c")], 1), ([S ("q.q"), S ("r")], 1)]⟩

/-- C10: a child node's name is `connect_to + '-' + segment`; two distinct
segment tuples can join to the same name, and on a concrete table the two
distinct tuples ("a.a","b-c") and ("a.a-b","c") both produce a node named
"a.a-b-c" (distinguishable here by their labels). -/
theorem C10_node_name_not_injective :
    childName (joinDash [S ("a.a")]) (S ("b-c"))
      = childName (joinDash [S ("a.a-b")]) (S ("c")) ∧
    ([S ("a.a"), S ("b-c")] : List PStr) ≠ [S ("a.a-b"), S ("c")] ∧
    ∃ g, make_sitemap_graph dfC10 1 50 (S ("8,5")) = .ok g ∧
      BodyLine.node (S ("a.a-b-c")) (S ("b-c")) ∈ g ∧
      BodyLine.node (S ("a.a-b-c")) (S ("c")) ∈ g := by
  refine ⟨by decide, by decide, _, rfl, by decide, by decide⟩

/-! ### C8: the per-parent branch limit -/

def isEdgeLine : BodyLine → Bool
  | .edge _ _ _ => true
  | _ => false

def isNodeLine : BodyLine → Bool
  | .node _ _ => true
  | _ => false

/-- Edges of the body whose tail is the node named `t`. -/
def edgesFrom (t : PStr) (g : List BodyLine) : List BodyLine :=
  g.filter (fun b => match b with
    | BodyLine.edge tl _ _ => decide (tl = t)
    | _ => false)

def dfC8 : DF :=
  ⟨3, [([S ("a.a"), S ("b-c"), S ("u")], 1), ([S ("a.a-b"), S ("c"), S ("v")], 1),
       ([S ("q.q"), S ("r"), S ("s")], 1)]⟩

/-- C8 (counterexample): with limit 1, the node named "a.a-b-c" ends up with
two outgoing child edges, because two distinct parent tuples alias to that one
node name and each `add_branch` call adds its own children. -/
theorem C8_counterexample :
    ∃ g, make_sitemap_graph dfC8 2 1 (S ("8,5")) = .ok g ∧
      (edgesFrom (S ("a.a-b-c")) g).length = 2 ∧ (1 : Nat) < 2 := by
  refine ⟨_, rfl, by decide, by decide⟩

theorem flatMap_pair_filter_edge (c : PStr) (pairs : List (PStr × Nat)) :
    ((pairs.flatMap (fun p =>
      [BodyLine.node (childName c p.1) p.1,
       BodyLine.edge c (childName c p.1) (commaFmt p.2)])).filter isEdgeLine).length
      = pairs.length := by
  induction pairs with
  | nil => rfl
  | cons p t ih => simp [List.flatMap_cons, isEdgeLine, ih]

theorem flatMap_pair_filter_node (c : PStr) (pairs : List (PStr × Nat)) :
    ((pairs.flatMap (fun p =>
      [BodyLine.node (childName c p.1) p.1,
       BodyLine.edge c (childName c p.1) (commaFmt p.2)])).filter isNodeLine).length
      = pairs.length := by
  induction pairs with
  | nil => rfl
  | cons p t ih => simp [List.flatMap_cons, isNodeLine, ih]

theorem pyTake_length_le (limit : Int) (hl : 0 ≤ limit) (l : List α) :
    (pyTake limit l).length ≤ limit.toNat := by
  simp only [pyTake, hl, if_pos]
  exact Nat.le_trans (Nat.le_of_eq (rfl)) (by simpa using List.length_take_le limit.toNat l)

def dfC8ex : DF :=
  ⟨2, [([S ("a.com"), S ("x")], 5), ([S ("a.com"), S ("y")], 3), ([S ("a.com"), S ("z")], 1)]⟩

/-- C8 (amended): each single `add_branch` invocation — one per distinct parent
TUPLE — appends at most `limit` child nodes and at most `limit` child edges,
keeping the children with the largest aggregate counts; distinct tuples whose
'-'-joined names collide can each contribute to the same node name.  On the
spec's example (limit 1, children with counts 5, 3, 1) only the count-5 child
node and its edge are created. -/
theorem C8_amended_limit_per_tuple :
    (∀ (body : List BodyLine) (names : List PStr) (vals : List Nat) (limit : Int)
        (c : PStr) (b' : List BodyLine), 0 ≤ limit →
      add_branch body names vals limit c = .ok b' →
      ∃ extra, b' = body ++ extra ∧
        (extra.filter isEdgeLine).length ≤ limit.toNat ∧
        (extra.filter isNodeLine).length ≤ limit.toNat) ∧
    make_sitemap_graph dfC8ex 1 1 (S ("8,5")) = .ok
      [.raw (S ("rankdir=LR")), .raw (S ("size=\x228,5\x22")),
       .raw (S ("\tnode [shape=rectangle]")),
       .node (S ("a.com")) (S ("a.com (9)")), .raw (S ("\tnode [shape=oval]")),
       .node (S ("a.com-x")) (S ("x")), .edge (S ("a.com")) (S ("a.com-x")) (S ("5"))] := by
  constructor
  · intro body names vals limit c b' hl hok
    unfold add_branch at hok
    cases hnn : nodeNamesOf body with
    | none => rw [hnn] at hok; cases hok
    | some ns =>
      rw [hnn] at hok
      dsimp only [] at hok
      by_cases hce : c ≠ []
      · rw [if_pos hce] at hok
        by_cases hmem : c ∈ ns
        · rw [if_pos hmem] at hok
          injection hok with hok
          refine ⟨_, hok.symm, ?_, ?_⟩
          · rw [flatMap_pair_filter_edge]
            exact pyTake_length_le limit hl _
          · rw [flatMap_pair_filter_node]
            exact pyTake_length_le limit hl _
        · rw [if_neg hmem] at hok
          injection hok with hok
          exact ⟨[], by simp [hok.symm], by simp, by simp⟩
      · rw [if_neg hce] at hok
        injection hok with hok
        exact ⟨[], by simp [hok.symm], by simp, by simp⟩
  · rfl

theorem C8_amended_limit_per_tuple_witness :
    ∃ extra,
      ([BodyLine.node (S ("a.com")) (S ("a.com (9)"))] ++
        [BodyLine.node (S ("a.com-x")) (S ("x")),
         BodyLine.edge (S ("a.com")) (S ("a.com-x")) (S ("5"))]) =
        [BodyLine.node (S ("a.com")) (S ("a.com (9)"))] ++ extra ∧
      (extra.filter isEdgeLine).length ≤ (1 : Int).toNat ∧
      (extra.filter isNodeLine).length ≤ (1 : Int).toNat :=
  C8_amended_limit_per_tuple.1 [BodyLine.node (S ("a.com")) (S ("a.com (9)"))]
    [S ("x"), S ("y"), S ("z")] [5, 3, 1] 1 (S ("a.com"))
    ([BodyLine.node (S ("a.com")) (S ("a.com (9)"))] ++
      [BodyLine.node (S ("a.com-x")) (S ("x")),
       BodyLine.edge (S ("a.com")) (S ("a.com-x")) (S ("5"))])
    (by decide) rfl

/-! ### C7: edges only to existing parents?  The scan in `add_branch` extracts
"names" from rendered lines between the first two quote characters, which can
leak fragments of escaped names. -/

def dfC7 : DF :=
  ⟨3, [([S ("h.x"), S ("b\"c"), S ("u")], 5), ([S ("h.x"), S ("b\"c"), S ("u2")], 1),
       ([S ("h.x"), S ("b\\"), S ("z")], 1)]⟩

def noNodeNamed (t : PStr) (g : List BodyLine) : Bool :=
  g.all (fun b => match b with
    | BodyLine.node n _ => decide (n ≠ t)
    | _ => true)

theorem noNodeNamed_spec (t : PStr) (g : List BodyLine) (h : noNodeNamed t g = true) :
    ∀ lbl, BodyLine.node t lbl ∉ g := by
  intro lbl hmem
  have := List.all_eq_true.1 h _ hmem
  simp at this

/-- C7 (counterexample): on a table whose cells contain a double quote, the
escaped node line for `h.x-b"c` leaks the fragment `h.x-b\` into the scanned
name list, so a later branch for the truncated tuple ("h.x","b\") passes the
existence check and an edge is emitted whose parent node `h.x-b\` was never
created. -/
theorem C7_counterexample :
    ∃ g, make_sitemap_graph dfC7 2 1 (S ("8,5")) = .ok g ∧
      BodyLine.edge (S ("h.x-b\\")) (S ("h.x-b\\-z")) (S ("1")) ∈ g ∧
      ∀ lbl, BodyLine.node (S ("h.x-b\\")) lbl ∉ g := by
  refine ⟨_, rfl, by decide, noNodeNamed_spec _ _ (by decide)⟩

/-! #### Safety conditions under which the scan is sound -/

def noChar (c : Char) (l : PStr) : Bool := l.all (fun x => decide (x ≠ c))

/-- A cell value free of the three characters that confuse the body scan:
double quote (escaping), '<' (HTML strings), ':' (edge ports). -/
def NoBad (l : PStr) : Bool := noChar '"' l && noChar '<' l && noChar ':' l

/-- A node name that is rendered quoted and unescaped. -/
def SafeName (l : PStr) : Prop := NoBad l = true ∧ isGvId l = false

def NodeIn (B : List BodyLine) (n : PStr) : Prop := ∃ lbl, BodyLine.node n lbl ∈ B

/-- Per-line invariant: raw lines carry no 'label'; node names are safe; edges
connect safe names whose nodes are present in the body. -/
def ItemOK (B : List BodyLine) : BodyLine → Prop
  | .raw s => hasLabel s = false
  | .node n _ => SafeName n
  | .edge t h _ => SafeName t ∧ SafeName h ∧ NodeIn B t ∧ NodeIn B h

def BodyInv (B : List BodyLine) : Prop := ∀ b ∈ B, ItemOK B b

theorem itemOK_mono {B B' : List BodyLine} (hsub : ∀ x ∈ B, x ∈ B') :
    ∀ b, ItemOK B b → ItemOK B' b := by
  intro b h
  cases b with
  | raw s => exact h
  | node n lbl => exact h
  | edge t hd lbl =>
    obtain ⟨h1, h2, ⟨l1, hl1⟩, ⟨l2, hl2⟩⟩ := h
    exact ⟨h1, h2, ⟨l1, hsub _ hl1⟩, ⟨l2, hsub _ hl2⟩⟩

/-! #### Rendering under the safety conditions -/

theorem noChar_iff (c : Char) (l : PStr) : noChar c l = true ↔ c ∉ l := by
  constructor
  · intro h hc
    have := List.all_eq_true.1 h c hc
    simp at this
  · intro h
    apply List.all_eq_true.2
    intro x hx
    by_cases hxc : x = c
    · subst hxc; exact absurd hx h
    · simp [hxc]

theorem noChar_cons {c x : Char} {xs : PStr} (h : noChar c (x :: xs) = true) :
    x ≠ c ∧ noChar c xs = true := by
  have hmem := (noChar_iff c (x :: xs)).1 h
  exact ⟨fun hc => hmem (by simp [hc]),
    (noChar_iff c xs).2 (fun hc => hmem (by simp [hc]))⟩

theorem escapeQuotes_of_noQuote (l : PStr) (h : noChar '"' l = true) :
    escapeQuotes l = l := by
  induction l with
  | nil => rfl
  | cons x xs ih =>
    obtain ⟨hx, hxs⟩ := noChar_cons h
    rw [escapeQuotes, if_neg hx, ih hxs]

theorem isHtml_of_noLt (l : PStr) (h : noChar '<' l = true) : isHtml l = false := by
  cases l with
  | nil => rfl
  | cons x xs =>
    have hx : x ≠ '<' := by
      intro hc
      exact absurd (by simp [hc] : '<' ∈ x :: xs) ((noChar_iff '<' (x :: xs)).1 h)
    simp [isHtml, hx]

theorem noBad_parts {l : PStr} (h : NoBad l = true) :
    noChar '"' l = true ∧ noChar '<' l = true ∧ noChar ':' l = true := by
  simp only [NoBad, Bool.and_eq_true] at h
  exact ⟨h.1.1, h.1.2, h.2⟩

theorem quoteGv_of_safe (n : PStr) (h : SafeName n) :
    quoteGv n = '"' :: (n ++ ['"']) := by
  obtain ⟨hbad, hid⟩ := h
  obtain ⟨hq, hlt, _⟩ := noBad_parts hbad
  simp only [quoteGv, isHtml_of_noLt n hlt, hid, Bool.not_false, Bool.true_or,
    Bool.false_eq_true, if_false, if_true, escapeQuotes_of_noQuote n hq]

theorem pyPartition_of_noColon (l : PStr) (h : noChar ':' l = true) :
    pyPartition l ':' = (l, none) := by
  induction l with
  | nil => rfl
  | cons x xs ih =>
    obtain ⟨hx, hxs⟩ := noChar_cons h
    simp only [pyPartition, hx, if_neg, if_false, ih hxs]

theorem quoteEdgeGv_of_safe (n : PStr) (h : SafeName n) :
    quoteEdgeGv n = '"' :: (n ++ ['"']) := by
  obtain ⟨_, _, hcol⟩ := noBad_parts h.1
  rw [quoteEdgeGv, pyPartition_of_noColon n hcol]
  exact quoteGv_of_safe n h

/-- Splitting on '"' walks past a quote-free chunk. -/
theorem splitCh_quote_chunk (a r : PStr) (ha : noChar '"' a = true) :
    splitCh '"' (a ++ '"' :: r) = a :: splitCh '"' r := by
  induction a with
  | nil => simp [splitCh]
  | cons x xs ih =>
    obtain ⟨hx, hxs⟩ := noChar_cons ha
    rw [List.cons_append, splitCh]
    rw [if_neg hx, ih hxs]

/-- The scanned "name" of a safely-rendered node line is its actual name. -/
theorem scan_entry_node (n lbl : PStr) (hn : SafeName n) :
    (splitCh '"' (renderLine (BodyLine.node n lbl))).get? 1 = some n := by
  have hq := (noBad_parts hn.1).1
  have hline : renderLine (BodyLine.node n lbl)
      = ['\t'] ++ '"' :: (n ++ '"' :: (S (" [label=") ++ quoteGv lbl ++ S ("]"))) := by
    rw [renderLine, quoteGv_of_safe n hn]
    simp [List.append_assoc]
  rw [hline, splitCh_quote_chunk ['\t'] _ (by decide), splitCh_quote_chunk n _ hq]
  rfl

/-- The scanned "name" of a safely-rendered edge line is its tail node name. -/
theorem scan_entry_edge (t hd lbl : PStr) (ht : SafeName t) :
    (splitCh '"' (renderLine (BodyLine.edge t hd lbl))).get? 1 = some t := by
  have hq := (noBad_parts ht.1).1
  have hline : renderLine (BodyLine.edge t hd lbl)
      = ['\t'] ++ '"' :: (t ++ '"' :: (S (" -> ") ++ quoteEdgeGv hd ++ S (" [label=") ++
          quoteGv lbl ++ S ("]"))) := by
    rw [renderLine, quoteEdgeGv_of_safe t ht]
    simp [List.append_assoc]
  rw [hline, splitCh_quote_chunk ['\t'] _ (by decide), splitCh_quote_chunk t _ hq]
  rfl

/-! #### Joined child names are never identifiers -/

theorem dash_not_digitish (l : PStr) (h : '-' ∈ l) :
    l.all Char.isDigit = false ∧ intRest l = false ∧
    digits1Dot l = false ∧ dotDigits l = false := by
  induction l with
  | nil => cases h
  | cons c cs ih =>
    by_cases hc : c = '-'
    · subst hc
      refine ⟨?_, ?_, ?_, ?_⟩
      · show (Char.isDigit '-' && cs.all Char.isDigit) = false
        simp only [show Char.isDigit '-' = false from by decide, Bool.false_and]
      · show (if ('-' : Char) = '.' then cs.all Char.isDigit
            else (Char.isDigit '-' && intRest cs)) = false
        rw [if_neg (by decide : ¬ ('-' : Char) = '.')]
        simp only [show Char.isDigit '-' = false from by decide, Bool.false_and]
      · show (Char.isDigit '-' && intRest cs) = false
        simp only [show Char.isDigit '-' = false from by decide, Bool.false_and]
      · show (decide (('-' : Char) = '.') && (!cs.isEmpty && cs.all Char.isDigit)) = false
        simp
    · have hcs : '-' ∈ cs := by
        rcases List.mem_cons.1 h with h1 | h1
        · exact absurd h1.symm hc
        · exact h1
      obtain ⟨ha, hi, hd1, hdd⟩ := ih hcs
      refine ⟨?_, ?_, ?_, ?_⟩
      · show (c.isDigit && cs.all Char.isDigit) = false
        rw [ha, Bool.and_false]
      · show (if c = '.' then cs.all Char.isDigit else (c.isDigit && intRest cs)) = false
        by_cases hdot : c = '.'
        · rw [if_pos hdot]; exact ha
        · rw [if_neg hdot, hi, Bool.and_false]
      · show (c.isDigit && intRest cs) = false
        rw [hi, Bool.and_false]
      · show (decide (c = '.') && (!cs.isEmpty && cs.all Char.isDigit)) = false
        rw [ha, Bool.and_false, Bool.and_false]

theorem gvLetterId_midDash (a b : PStr) (ha : a ≠ []) :
    gvLetterId (a ++ '-' :: b) = false := by
  cases a with
  | nil => exact absurd rfl ha
  | cons x xs =>
    rw [List.cons_append, gvLetterId]
    have hall : (xs ++ '-' :: b).all isAlnumUnd = false := by
      cases h : (xs ++ '-' :: b).all isAlnumUnd with
      | false => rfl
      | true =>
        have := List.all_eq_true.1 h '-' (by simp)
        exact absurd this (by decide)
    rw [hall, Bool.and_false]

theorem gvNumeral_midDash (a b : PStr) (ha : a ≠ []) :
    gvNumeral (a ++ '-' :: b) = false := by
  cases a with
  | nil => exact absurd rfl ha
  | cons x xs =>
    rw [List.cons_append, gvNumeral]
    by_cases hx : x = '-'
    · rw [if_pos hx]
      obtain ⟨_, _, hd1, hdd⟩ := dash_not_digitish (xs ++ '-' :: b) (by simp)
      rw [hd1, hdd]; rfl
    · rw [if_neg hx]
      obtain ⟨_, _, hd1, hdd⟩ := dash_not_digitish (x :: (xs ++ '-' :: b)) (by simp)
      rw [hd1, hdd]; rfl

theorem isGvId_midDash (a b : PStr) (ha : a ≠ []) : isGvId (a ++ '-' :: b) = false := by
  rw [isGvId, gvLetterId_midDash a b ha, gvNumeral_midDash a b ha]; rfl

theorem noChar_join (ch : Char) (c n : PStr) (hchd : ch ≠ '-')
    (h1 : noChar ch c = true) (h2 : noChar ch n = true) :
    noChar ch (c ++ '-' :: n) = true := by
  apply (noChar_iff _ _).2
  intro hmem
  rcases List.mem_append.1 hmem with h | h
  · exact (noChar_iff _ _).1 h1 h
  · rcases List.mem_cons.1 h with h | h
    · exact hchd h
    · exact (noChar_iff _ _).1 h2 h

theorem safeName_childName (c n : PStr) (hc : c ≠ []) (hcb : NoBad c = true)
    (hnb : NoBad n = true) : SafeName (childName c n) := by
  obtain ⟨h1, h2, h3⟩ := noBad_parts hcb
  obtain ⟨g1, g2, g3⟩ := noBad_parts hnb
  refine ⟨?_, isGvId_midDash c n hc⟩
  simp only [NoBad, childName, Bool.and_eq_true]
  exact ⟨⟨noChar_join _ c n (by decide) h1 g1, noChar_join _ c n (by decide) h2 g2⟩,
    noChar_join _ c n (by decide) h3 g3⟩

/-! #### Soundness of the body scan under the invariant -/

theorem nodeNamesOf_sound (B : List BodyLine) :
    ∀ l : List BodyLine, (∀ b ∈ l, b ∈ B ∧ ItemOK B b) →
      ∃ ns, nodeNamesOf l = some ns ∧ ∀ x ∈ ns, SafeName x ∧ NodeIn B x := by
  intro l
  induction l with
  | nil => exact fun _ => ⟨[], rfl, by simp⟩
  | cons b bs ih =>
    intro hall
    obtain ⟨hbB, hbOK⟩ := hall b (by simp)
    obtain ⟨ns, hns, hprop⟩ := ih (fun x hx => hall x (by simp [hx]))
    cases b with
    | raw s =>
      refine ⟨ns, ?_, hprop⟩
      rw [nodeNamesOf]
      have hlb : hasLabel (renderLine (BodyLine.raw s)) = false := hbOK
      rw [hlb]
      simp only [Bool.false_eq_true, if_false]
      exact hns
    | node n lbl =>
      rw [nodeNamesOf]
      cases hhl : hasLabel (renderLine (BodyLine.node n lbl)) with
      | false =>
        simp only [Bool.false_eq_true, if_false]
        exact ⟨ns, hns, hprop⟩
      | true =>
        simp only [if_true]
        rw [scan_entry_node n lbl hbOK, hns]
        refine ⟨n :: ns, rfl, ?_⟩
        intro x hx
        rcases List.mem_cons.1 hx with rfl | hx'
        · exact ⟨hbOK, ⟨lbl, hbB⟩⟩
        · exact hprop x hx'
    | edge t hd lbl =>
      obtain ⟨ht, hh, hNt, hNh⟩ := hbOK
      rw [nodeNamesOf]
      cases hhl : hasLabel (renderLine (BodyLine.edge t hd lbl)) with
      | false =>
        simp only [Bool.false_eq_true, if_false]
        exact ⟨ns, hns, hprop⟩
      | true =>
        simp only [if_true]
        rw [scan_entry_edge t hd lbl ht, hns]
        refine ⟨t :: ns, rfl, ?_⟩
        intro x hx
        rcases List.mem_cons.1 hx with rfl | hx'
        · exact ⟨ht, hNt⟩
        · exact hprop x hx'

/-! #### `add_branch` preserves the body invariant -/

theorem add_branch_ok (B : List BodyLine) (names : List PStr) (vals : List Nat)
    (limit : Int) (c : PStr) (hInv : BodyInv B)
    (hnames : ∀ n ∈ names, NoBad n = true) :
    ∃ B', add_branch B names vals limit c = .ok B' ∧ BodyInv B' ∧ ∀ x ∈ B, x ∈ B' := by
  obtain ⟨ns, hns, hprop⟩ := nodeNamesOf_sound B B (fun b hb => ⟨hb, hInv b hb⟩)
  unfold add_branch
  rw [hns]
  dsimp only []
  by_cases hce : c ≠ []
  · rw [if_pos hce]
    by_cases hmem : c ∈ ns
    · rw [if_pos hmem]
      obtain ⟨hcSafe, hcNode⟩ := hprop c hmem
      refine ⟨_, rfl, ?_, fun x hx => List.mem_append_left _ hx⟩
      intro b hb
      rcases List.mem_append.1 hb with hbB | hbE
      · exact itemOK_mono (fun x hx => List.mem_append_left _ hx) b (hInv b hbB)
      · rcases List.mem_flatMap.1 hbE with ⟨p, hp, hbp⟩
        rcases p with ⟨pn, pv⟩
        have hpz : (pn, pv) ∈ names.zip vals := by
          have hp' : (pn, pv) ∈ pyTake limit (names.zip vals) := hp
          unfold pyTake at hp'
          split at hp' <;> exact List.mem_of_mem_take hp'
        have hp1 : pn ∈ names := (List.of_mem_zip hpz).1
        have hchild : SafeName (childName c pn) :=
          safeName_childName c pn hce hcSafe.1 (hnames pn hp1)
        rcases List.mem_cons.1 hbp with rfl | hbp'
        · exact hchild
        · rcases List.mem_cons.1 hbp' with rfl | h0
          · refine ⟨hcSafe, hchild, ?_, ?_⟩
            · obtain ⟨lbl, hlbl⟩ := hcNode
              exact ⟨lbl, List.mem_append_left _ hlbl⟩
            · exact ⟨pn, List.mem_append_right _
                (List.mem_flatMap.2 ⟨(pn, pv), hp, by simp⟩)⟩
          · cases h0
    · rw [if_neg hmem]
      exact ⟨B, rfl, hInv, fun x hx => hx⟩
  · rw [if_neg hce]
    exact ⟨B, rfl, hInv, fun x hx => hx⟩

/-! #### Hypotheses on the table, pushed through the construction -/

/-- Every cell is free of the characters that confuse the body scan. -/
def CellsOK (df : DF) : Prop := ∀ r ∈ df.rows, ∀ cell ∈ r.1, NoBad cell = true

theorem noBad_colAt (df : DF) (H1 : CellsOK df) (r : List PStr × Nat)
    (hr : r ∈ df.rows) (i : Nat) : NoBad (colAt i r) = true := by
  unfold colAt
  cases hg : r.1.get? i with
  | none => decide
  | some v =>
    simp only [Option.getD_some]
    exact H1 r hr v (List.get?_mem hg)

theorem groupSumBy_key_mem (f : List PStr × Nat → PStr)
    (rows : List (List PStr × Nat)) :
    ∀ p ∈ groupSumBy f rows, ∃ r ∈ rows, p.1 = f r := by
  intro p hp
  unfold groupSumBy at hp
  have hp1 := mem_sortBy.1 hp
  rcases List.mem_map.1 hp1 with ⟨v, hv, rfl⟩
  have hv1 : v ∈ sortBy lexLe (rows.map f) := List.mem_dedup.1 hv
  rcases List.mem_map.1 (mem_sortBy.1 hv1) with ⟨r, hr, rfl⟩
  exact ⟨r, hr, rfl⟩

theorem processNodes_inv (df : DF) (limit : Int) (i : Nat) (H1 : CellsOK df) :
    ∀ (ks : List (List PStr)) (B B' : List BodyLine), BodyInv B →
      processNodes df limit i ks B = .ok B' → BodyInv B' := by
  intro ks
  induction ks with
  | nil =>
    intro B B' hInv h
    unfold processNodes at h
    injection h with h
    exact h ▸ hInv
  | cons k t ih =>
    intro B B' hInv h
    unfold processNodes at h
    by_cases hseg : df.segCols ≤ i
    · rw [if_pos hseg] at h; cases h
    · rw [if_neg hseg] at h
      have hnames : ∀ n ∈ (groupSumBy (colAt i) (df.rows.filter
          (fun r => decide (r.1.take i = k)))).map (fun p => p.1), NoBad n = true := by
        intro n hn
        rcases List.mem_map.1 hn with ⟨p, hp, rfl⟩
        rcases groupSumBy_key_mem _ _ p hp with ⟨r, hr, hpr⟩
        rw [hpr]
        exact noBad_colAt df H1 r (List.mem_of_mem_filter hr) i
      obtain ⟨B1, hab, hInv1, _⟩ := add_branch_ok B _ _ limit (joinDash k) hInv hnames
      rw [hab] at h
      dsimp only [] at h
      exact ih B1 B' hInv1 h

theorem processLayers_inv (df : DF) (limit : Int) (H1 : CellsOK df) :
    ∀ (idxs : List Nat) (B B' : List BodyLine), BodyInv B →
      processLayers df limit idxs B = .ok B' → BodyInv B' := by
  intro idxs
  induction idxs with
  | nil =>
    intro B B' hInv h
    unfold processLayers at h
    injection h with h
    exact h ▸ hInv
  | cons i t ih =>
    intro B B' hInv h
    unfold processLayers at h
    by_cases hseg : df.segCols < i
    · rw [if_pos hseg] at h; cases h
    · rw [if_neg hseg] at h
      cases hpn : processNodes df limit i (dedupF (df.rows.map (fun r => r.1.take i))) B with
      | error e => rw [hpn] at h; cases h
      | ok B1 =>
        rw [hpn] at h
        dsimp only [] at h
        exact ih B1 B' (processNodes_inv df limit i H1 _ B B1 hInv hpn) h

theorem bodyInv_initBody (df : DF) (H1 : CellsOK df)
    (H2 : ∀ r ∈ df.rows, isGvId (colAt 0 r) = false) :
    BodyInv (initBody df (S ("8,5"))) := by
  intro b hb
  unfold initBody at hb
  rcases List.mem_append.1 hb with hb | hb
  · rcases List.mem_cons.1 hb with rfl | hb
    · exact (by decide : hasLabel (S ("rankdir=LR")) = false)
    · rcases List.mem_cons.1 hb with rfl | hb
      · exact (by decide : hasLabel (S ("size=\x22") ++ S ("8,5") ++ ['"']) = false)
      · rcases List.mem_cons.1 hb with rfl | hb
        · exact (by decide : hasLabel (S ("\tnode [shape=rectangle]")) = false)
        · cases hb
  · rcases List.mem_map.1 hb with ⟨p, hp, rfl⟩
    rcases groupSumBy_key_mem _ _ p hp with ⟨r, hr, hpr⟩
    show SafeName p.1
    rw [hpr]
    exact ⟨noBad_colAt df H1 r hr 0, H2 r hr⟩

theorem bodyInv_append_raw (B : List BodyLine) (s : PStr) (hInv : BodyInv B)
    (hs : hasLabel s = false) : BodyInv (B ++ [BodyLine.raw s]) := by
  intro b hb
  rcases List.mem_append.1 hb with hb | hb
  · exact itemOK_mono (fun x hx => List.mem_append_left _ hx) b (hInv b hb)
  · rw [List.mem_singleton] at hb
    subst hb
    exact hs

/-- C7 (amended): provided every table cell is free of '"', '<' and ':' and
every column-'0' value fails graphviz's unquoted-identifier test (so every
emitted name is rendered quoted and unescaped), every edge in the produced
graph connects to a node that was actually created. -/
theorem C7_amended_edges_have_parents (df : DF) (layers limit : Int)
    (g : List BodyLine)
    (H1 : ∀ r ∈ df.rows, ∀ cell ∈ r.1, NoBad cell = true)
    (H2 : ∀ r ∈ df.rows, isGvId (colAt 0 r) = false)
    (hok : make_sitemap_graph df layers limit (S ("8,5")) = .ok g) :
    ∀ t hd lbl, BodyLine.edge t hd lbl ∈ g → ∃ lbl2, BodyLine.node t lbl2 ∈ g := by
  have hInvG : BodyInv g := by
    unfold make_sitemap_graph at hok
    by_cases hseg : df.segCols = 0
    · rw [if_pos hseg] at hok; cases hok
    · rw [if_neg hseg] at hok
      by_cases hL : clampL df layers = 0
      · rw [if_pos hL] at hok
        injection hok with hok
        exact hok ▸ bodyInv_initBody df H1 H2
      · rw [if_neg hL] at hok
        exact processLayers_inv df limit H1 _ _ g
          (bodyInv_append_raw _ _ (bodyInv_initBody df H1 H2) (by decide)) hok
  intro t hd lbl hmem
  obtain ⟨_, _, ⟨lbl2, hn⟩, _⟩ := hInvG _ hmem
  exact ⟨lbl2, hn⟩

theorem C7_amended_edges_have_parents_witness :
    ∃ lbl2, BodyLine.node (S ("a.com")) lbl2 ∈
      [BodyLine.raw (S ("rankdir=LR")), BodyLine.raw (S ("size=\x228,5\x22")),
       BodyLine.raw (S ("\tnode [shape=rectangle]")),
       BodyLine.node (S ("a.com")) (S ("a.com (9)")),
       BodyLine.raw (S ("\tnode [shape=oval]")),
       BodyLine.node (S ("a.com-x")) (S ("x")),
       BodyLine.edge (S ("a.com")) (S ("a.com-x")) (S ("5"))] :=
  C7_amended_edges_have_parents dfC8ex 1 1 _
    (by intro r hr cell hc; fin_cases hr <;> fin_cases hc <;> decide)
    (by intro r hr; fin_cases hr <;> decide)
    rfl (S ("a.com")) (S ("a.com-x")) (S ("5")) (by decide)
